import Mathlib

/-!
Verification of the signal-preconditioning module of the hyser-decomposition
repository (`src/hyser/preprocessing.py`), which exposes two operations on a
2-D signal matrix (rows = channels, columns = time samples):

* `extend_signal(x, r)` — time-delay channel extension;
* `whiten_signal(x)` — symmetric (ZCA-style) whitening via eigen-decomposition
  of the channel covariance with a fixed regularizer `eps = 1e-10`.

The embedding below translates the Python/numpy source.  `extend_signal` is
modelled over exact rationals with its numpy error paths made explicit;
`whiten_signal` is modelled over the reals, with the external symmetric
eigensolver `np.linalg.eigh` represented by explicit parameters that theorems
constrain to be a genuine spectral decomposition.
-/

namespace hyser

/-! ### Embedding of `extend_signal` (preprocessing.py lines 6-32)

Source:
```
n_obs, n_samples = x.shape
n_obs_ext = n_obs * (r + 1)
x_ext = np.zeros(shape=(n_obs_ext, n_samples), dtype=float)
x_ext[0:n_obs] = x
if r != 0:
    for i in range(r):
        start_row = n_obs * (i + 1)
        stop_row = n_obs * (i + 2)
        x_ext[start_row:stop_row, i + 1:] = x[:, :-(i + 1)]
return x_ext
```

The 2-D input is a `List (List ℚ)` of rows; the allocated output array is a
shape together with a total entry function (the code never reads outside the
shape).  The numpy failure modes are explicit:

* `np.zeros` with a negative first dimension (`n_obs * (r + 1) < 0`, reachable
  for `r ≤ -2`) raises `ValueError: negative dimensions are not allowed`;
* the slice assignment `x_ext[0:n_obs] = x` broadcasts the source of shape
  `(n_obs, n_samples)` into the target slice of shape
  `(min(n_obs, n_obs_ext), n_samples)`; this fails unless the target keeps all
  `n_obs` rows or `n_obs ≤ 1` (a length-1 dimension broadcasts to any size,
  including 0).  With `r = -1` and `n_obs ≥ 2` this raises
  `ValueError: could not broadcast input array ...`; with `n_obs ≤ 1` it
  silently copies nothing;
* the loop `for i in range(r)` runs `max r 0` times (`range` of a negative is
  empty, so the `if r != 0` guard is redundant for negative `r`), and each
  slice assignment of each iteration always matches shapes: both sides have `n_obs`
  rows and `max (n_samples - (i+1)) 0` columns.
-/

/-- Read entry `x[i][j]` of the input 2-D array. -/
def npGet (x : List (List ℚ)) (i j : Nat) : ℚ := (x.getD i []).getD j 0

/-- One iteration of the loop body:
`x_ext[n_obs*(i+1) : n_obs*(i+2), i+1:] = x[:, :-(i+1)]` as a transformation
of the entry function of the allocated array. -/
def delayAssign (x : List (List ℚ)) (n_obs i : Nat) (a : Nat → Nat → ℚ) :
    Nat → Nat → ℚ :=
  fun p q =>
    if n_obs * (i + 1) ≤ p ∧ p < n_obs * (i + 2) ∧ i + 1 ≤ q then
      npGet x (p - n_obs * (i + 1)) (q - (i + 1))
    else a p q

/-- The entry function of `x_ext` after the zero allocation, the block-0
assignment `x_ext[0:n_obs] = x`, and `R` iterations of the delay loop. -/
def extendEntry (x : List (List ℚ)) (R : Nat) : Nat → Nat → ℚ :=
  (List.range R).foldl (fun a i => delayAssign x x.length i a)
    (fun p q => if p < x.length then npGet x p q else 0)

/-- The allocated 2-D output array: shape plus entry function. -/
structure NDMatrix where
  rows : Nat
  cols : Nat
  entry : Nat → Nat → ℚ

/-- `extend_signal(x, r)` from `src/hyser/preprocessing.py`.  The two `.error`
branches are the two numpy `ValueError`s described above; note that neither is
an eager parameter-validation error. -/
def extend_signal (x : List (List ℚ)) (r : ℤ) : Except String NDMatrix :=
  if ((x.length : ℤ) * (r + 1)) < 0 then
    Except.error "negative dimensions are not allowed"
  else if ¬ (x.length ≤ ((x.length : ℤ) * (r + 1)).toNat ∨ x.length ≤ 1) then
    Except.error "could not broadcast input array"
  else
    Except.ok ⟨((x.length : ℤ) * (r + 1)).toNat, (x.headD []).length,
      extendEntry x r.toNat⟩

/-! #### Characterization of `extendEntry` -/

lemma extendEntry_succ (x : List (List ℚ)) (R : Nat) :
    extendEntry x (R + 1) = delayAssign x x.length R (extendEntry x R) := by
  unfold extendEntry
  rw [List.range_succ, List.foldl_append, List.foldl_cons, List.foldl_nil]

/-- Entries not written by any loop iteration keep their value after the
block-0 assignment. -/
lemma extendEntry_untouched (x : List (List ℚ)) (R : Nat) (p q : Nat)
    (h : ∀ i, i < R →
      ¬ (x.length * (i + 1) ≤ p ∧ p < x.length * (i + 2) ∧ i + 1 ≤ q)) :
    extendEntry x R p q = (if p < x.length then npGet x p q else 0) := by
  induction R with
  | zero => rfl
  | succ R ih =>
    rw [extendEntry_succ]
    unfold delayAssign
    rw [if_neg (h R (Nat.lt_succ_self R))]
    exact ih fun i hi => h i (Nat.lt_succ_of_lt hi)

/-- Rows below `n_obs` (row-block 0) hold the original signal. -/
lemma extendEntry_first (x : List (List ℚ)) (R p q : Nat) (hp : p < x.length) :
    extendEntry x R p q = npGet x p q := by
  rw [extendEntry_untouched x R p q, if_pos hp]
  intro i _ hcon
  have h1 : x.length * 1 ≤ x.length * (i + 1) :=
    Nat.mul_le_mul_left _ (Nat.succ_le_succ (Nat.zero_le i))
  omega

/-- Row-block `k` (for `1 ≤ k ≤ R`): column `q` holds `x[c][q-k]` when
`k ≤ q` and the allocated zero otherwise. -/
lemma extendEntry_block (x : List (List ℚ)) (R k c q : Nat)
    (hc : c < x.length) (hk1 : 1 ≤ k) (hkR : k ≤ R) :
    extendEntry x R (x.length * k + c) q =
      if k ≤ q then npGet x c (q - k) else 0 := by
  induction R with
  | zero => omega
  | succ R ih =>
    rw [extendEntry_succ]
    unfold delayAssign
    rcases Nat.lt_or_ge k (R + 1) with hlt | hge
    · -- k ≤ R: iteration R does not touch row-block k
      have hkR' : k ≤ R := Nat.lt_succ_iff.mp hlt
      have hdisj : x.length * (k + 1) ≤ x.length * (R + 1) :=
        Nat.mul_le_mul_left _ (Nat.succ_le_succ hkR')
      have hplt : x.length * (k + 1) = x.length * k + x.length := by ring
      rw [if_neg (by omega)]
      exact ih hkR'
    · -- k = R + 1: iteration R writes exactly this block
      have heq : k = R + 1 := le_antisymm hkR hge
      subst heq
      have hub : x.length * (R + 2) = x.length * (R + 1) + x.length := by ring
      by_cases hq : R + 1 ≤ q
      · rw [if_pos ⟨Nat.le_add_right _ _, by omega, hq⟩, if_pos hq,
          Nat.add_sub_cancel_left]
      · rw [if_neg (by omega), if_neg hq]
        rw [extendEntry_untouched x R _ q, if_neg (by
          have h1 : x.length * (R + 1) = x.length * R + x.length := by ring
          omega)]
        intro i hi hcon
        have h2 : x.length * (i + 2) ≤ x.length * (R + 1) :=
          Nat.mul_le_mul_left _ (by omega)
        omega

/-- For `r ≥ 0` the call always succeeds, with the stated shape and entries. -/
lemma extend_signal_eq_ok (x : List (List ℚ)) (r : ℤ) (hr : 0 ≤ r) :
    extend_signal x r = Except.ok
      ⟨x.length * (r.toNat + 1), (x.headD []).length, extendEntry x r.toNat⟩ := by
  have hcast : r + 1 = ((r.toNat + 1 : ℕ) : ℤ) := by omega
  have hprod : (x.length : ℤ) * (r + 1) = ((x.length * (r.toNat + 1) : ℕ) : ℤ) := by
    rw [hcast]; push_cast; ring
  have hle : x.length ≤ x.length * (r.toNat + 1) := by
    calc x.length = x.length * 1 := (mul_one _).symm
    _ ≤ x.length * (r.toNat + 1) := Nat.mul_le_mul_left _ (by omega)
  unfold extend_signal
  rw [hprod]
  rw [if_neg (by omega), Int.toNat_natCast,
    if_neg (by simp only [not_not]; exact Or.inl hle)]

/-- In a well-formed 2-D input with at least one row, the first row has
`n_samples` entries, so `n_samples = x.shape[1]` is recovered from the list. -/
lemma headD_length (x : List (List ℚ)) (n_samples : Nat) (hx : x ≠ [])
    (hwf : ∀ row ∈ x, row.length = n_samples) :
    (x.headD []).length = n_samples := by
  cases x with
  | nil => exact absurd rfl hx
  | cons h t => exact hwf h (List.mem_cons_self h t)

/-! ### Claim theorems about `extend_signal` -/

/-- C1: for every 2-D rational matrix `x` (a nonempty list of rows, each of
length `n_samples`) and every extension factor `r ≥ 0`, `extend_signal x r`
returns a matrix of shape `(n_channels * (r+1), n_samples)` whose row-block 0
equals `x`, and whose row-block `k` (for `1 ≤ k ≤ r`) has columns below `k`
equal to zero and column `j ≥ k` equal to column `j - k` of `x`. -/
theorem extend_signal_spec (x : List (List ℚ)) (r : ℤ) (n_samples : Nat)
    (hx : x ≠ []) (hwf : ∀ row ∈ x, row.length = n_samples) (hr : 0 ≤ r) :
    ∃ m : NDMatrix, extend_signal x r = Except.ok m ∧
      m.rows = x.length * (r.toNat + 1) ∧ m.cols = n_samples ∧
      (∀ i, i < x.length → ∀ j, j < n_samples → m.entry i j = npGet x i j) ∧
      (∀ k, 1 ≤ k → k ≤ r.toNat → ∀ c, c < x.length → ∀ j, j < n_samples →
        m.entry (x.length * k + c) j =
          if k ≤ j then npGet x c (j - k) else 0) := by
  exact ⟨_, extend_signal_eq_ok x r hr, rfl, headD_length x n_samples hx hwf,
    fun i hi j _ => extendEntry_first x r.toNat i j hi,
    fun k hk1 hkR c hc j _ => extendEntry_block x r.toNat k c j hc hk1 hkR⟩

/-- Witness for `extend_signal_spec`, instantiated at Scenario A of the spec:
`X = [[1,2,3,4,5],[5,4,3,2,1]]`, `r = 1`.  The final clause additionally
checks every entry of the result against the expected matrix
`[[1,2,3,4,5],[5,4,3,2,1],[0,1,2,3,4],[0,5,4,3,2]]`. -/
theorem extend_signal_spec_witness :
    ([[(1:ℚ),2,3,4,5],[5,4,3,2,1]] ≠ ([] : List (List ℚ))) ∧
    (∀ row ∈ [[(1:ℚ),2,3,4,5],[5,4,3,2,1]], row.length = 5) ∧
    ((0:ℤ) ≤ 1) ∧
    (∃ m : NDMatrix,
      extend_signal [[(1:ℚ),2,3,4,5],[5,4,3,2,1]] 1 = Except.ok m ∧
      m.rows = 2 * (1 + 1) ∧ m.cols = 5 ∧
      (∀ i, i < 2 → ∀ j, j < 5 →
        m.entry i j = npGet [[(1:ℚ),2,3,4,5],[5,4,3,2,1]] i j) ∧
      (∀ k, 1 ≤ k → k ≤ 1 → ∀ c, c < 2 → ∀ j, j < 5 →
        m.entry (2 * k + c) j =
          if k ≤ j then npGet [[(1:ℚ),2,3,4,5],[5,4,3,2,1]] c (j - k) else 0)) ∧
    (∀ p, p < 4 → ∀ q, q < 5 →
      (extend_signal [[(1:ℚ),2,3,4,5],[5,4,3,2,1]] 1).toOption.elim 0
          (fun m => m.entry p q) =
        npGet [[(1:ℚ),2,3,4,5],[5,4,3,2,1],[0,1,2,3,4],[0,5,4,3,2]] p q) :=
  ⟨by decide, by decide, by decide,
    extend_signal_spec [[(1:ℚ),2,3,4,5],[5,4,3,2,1]] 1 5 (by decide) (by decide)
      (by decide),
    by decide⟩

/-- C5: `extend_signal x 0` returns a matrix exactly equal to `x`: same number
of rows, same number of columns, same values. -/
theorem extend_zero_identity (x : List (List ℚ)) (n_samples : Nat)
    (hx : x ≠ []) (hwf : ∀ row ∈ x, row.length = n_samples) :
    ∃ m : NDMatrix, extend_signal x 0 = Except.ok m ∧
      m.rows = x.length ∧ m.cols = n_samples ∧
      ∀ i, i < x.length → ∀ j, j < n_samples → m.entry i j = npGet x i j := by
  exact ⟨_, extend_signal_eq_ok x 0 le_rfl, by norm_num,
    headD_length x n_samples hx hwf,
    fun i hi j _ => extendEntry_first x _ i j hi⟩

/-- Witness for `extend_zero_identity` at a concrete 2-by-2 matrix. -/
theorem extend_zero_identity_witness :
    ([[(1:ℚ),2],[3,4]] ≠ ([] : List (List ℚ))) ∧
    (∀ row ∈ [[(1:ℚ),2],[3,4]], row.length = 2) ∧
    (∃ m : NDMatrix, extend_signal [[(1:ℚ),2],[3,4]] 0 = Except.ok m ∧
      m.rows = 2 ∧ m.cols = 2 ∧
      ∀ i, i < 2 → ∀ j, j < 2 → m.entry i j = npGet [[(1:ℚ),2],[3,4]] i j) :=
  ⟨by decide, by decide,
    extend_zero_identity [[(1:ℚ),2],[3,4]] 2 (by decide) (by decide)⟩

/-- C9: `extend_signal` is total for every `r ≥ 0` even when a delay `k`
reaches or exceeds the signal length: the call succeeds and every such
row-block is entirely zero (the slice copy degenerates to an empty copy). -/
theorem extend_overlong_delay_zero (x : List (List ℚ)) (r : ℤ) (n_samples : Nat)
    (hx : x ≠ []) (hwf : ∀ row ∈ x, row.length = n_samples) (hr : 0 ≤ r) :
    ∃ m : NDMatrix, extend_signal x r = Except.ok m ∧ m.cols = n_samples ∧
      ∀ k, 1 ≤ k → k ≤ r.toNat → n_samples ≤ k →
        ∀ c, c < x.length → ∀ j, j < n_samples →
          m.entry (x.length * k + c) j = 0 := by
  refine ⟨_, extend_signal_eq_ok x r hr, headD_length x n_samples hx hwf,
    fun k hk1 hkR hns c hc j hj => ?_⟩
  show extendEntry x r.toNat (x.length * k + c) j = 0
  rw [extendEntry_block x r.toNat k c j hc hk1 hkR, if_neg (by omega)]

/-- Witness for `extend_overlong_delay_zero`: a single-channel signal of
length 2 extended with `r = 3`, so blocks `k = 2, 3` have delays at least
the signal length. -/
theorem extend_overlong_delay_zero_witness :
    ([[(1:ℚ),2]] ≠ ([] : List (List ℚ))) ∧
    (∀ row ∈ [[(1:ℚ),2]], row.length = 2) ∧ ((0:ℤ) ≤ 3) ∧
    (∃ m : NDMatrix, extend_signal [[(1:ℚ),2]] 3 = Except.ok m ∧ m.cols = 2 ∧
      ∀ k, 1 ≤ k → k ≤ 3 → 2 ≤ k →
        ∀ c, c < 1 → ∀ j, j < 2 → m.entry (1 * k + c) j = 0) :=
  ⟨by decide, by decide, by decide,
    extend_overlong_delay_zero [[(1:ℚ),2]] 3 2 (by decide) (by decide) (by decide)⟩

/-- C4 counterexample: with a single-channel input and `r = -1`,
`extend_signal` raises nothing at all — the slice assignment broadcasts the
`(1, 5)` source into the empty `(0, 5)` target, and the call silently returns
the empty extended matrix instead of failing with a validation error. -/
theorem extend_negative_silently_accepted :
    extend_signal [[(1:ℚ),2,3,4,5]] (-1) =
      Except.ok ⟨0, 5, extendEntry [[(1:ℚ),2,3,4,5]] 0⟩ := rfl

/-- C4 amended: `extend_signal` performs no eager validation of `r` and never
raises a dedicated invalid-parameter error.  With at least two channels a
negative `r` does fail, but only with a generic numpy `ValueError` raised in
the middle of the computation: a broadcast failure (after the output array
has already been allocated) when `r = -1`, and a negative-dimension rejection
inside `np.zeros` when `r ≤ -2`. -/
theorem extend_negative_error_behavior (x : List (List ℚ)) (r : ℤ)
    (hx : 2 ≤ x.length) (hr : r < 0) :
    (r = -1 →
      extend_signal x r = Except.error "could not broadcast input array") ∧
    (r ≤ -2 →
      extend_signal x r = Except.error "negative dimensions are not allowed") := by
  constructor
  · intro h
    subst h
    have h0 : ((x.length : ℤ) * (-1 + 1)).toNat = 0 := by norm_num
    unfold extend_signal
    rw [if_neg (by norm_num), if_pos (by rw [h0]; omega)]
  · intro h2
    have hp : (0 : ℤ) < (x.length : ℤ) := by exact_mod_cast by omega
    have hneg : (x.length : ℤ) * (r + 1) < 0 :=
      mul_neg_of_pos_of_neg hp (by omega)
    unfold extend_signal
    rw [if_pos hneg]

/-- Witness for `extend_negative_error_behavior` at a 2-channel input with
`r = -1`. -/
theorem extend_negative_error_behavior_witness :
    (2 ≤ [[(1:ℚ),2],[3,4]].length) ∧ ((-1:ℤ) < 0) ∧
    (((-1:ℤ) = -1 → extend_signal [[(1:ℚ),2],[3,4]] (-1) =
        Except.error "could not broadcast input array") ∧
     ((-1:ℤ) ≤ -2 → extend_signal [[(1:ℚ),2],[3,4]] (-1) =
        Except.error "negative dimensions are not allowed")) :=
  ⟨by decide, by decide,
    extend_negative_error_behavior [[(1:ℚ),2],[3,4]] (-1) (by decide) (by decide)⟩

/-! ### Embedding of `whiten_signal` (preprocessing.py lines 35-63)

Source:
```
x_mean = np.mean(x, axis=1, keepdims=True)
x_center = x - x_mean
cov_mtx = np.cov(x_center)
eig_vals, eig_vecs = np.linalg.eigh(cov_mtx)
eps = 1e-10
d = np.diag(1. / (eig_vals + eps)**0.5)
white_mtx = eig_vecs @ d @ eig_vecs.T
x_white = white_mtx @ x_center
return x_white, white_mtx
```

The 2-D float array is modelled as `Matrix (Fin m) (Fin n) ℝ`.  `np.cov` with
its default arguments centers each row and divides by `n_samples - 1`
(`ddof = 1`); `npCov` below reproduces that estimator.  `np.linalg.eigh` is an
external numeric capability (a LAPACK symmetric eigensolver), so its output
`(eig_vals, eig_vecs)` is modelled as explicit parameters; theorems constrain
them through `IsEigh`, the guarantee the eigensolver provides (orthonormal
eigenvector columns and a spectral factorization of its argument).

Two behaviours of the numpy pipeline are made explicit:

* `np.cov` ends with `return c.squeeze()`; for a single-channel 2-D input of
  shape `(1, n_samples)` the `(1, 1)` covariance is squeezed to a
  0-dimensional array, which `np.linalg.eigh` rejects with
  `LinAlgError: 0-dimensional array given. Array must be at least
  two-dimensional`.  This is the `m = 1` error branch of `whiten_signal`.
* `eps = 1e-10` is a local constant of the function body, not a parameter;
  `whitenMatrixWithEps` below is modelled from the spec (which asks for a
  configurable named parameter) so that the two designs can be compared.
-/

/-- Mean of row `i` over the sample axis: `np.mean(x, axis=1)`. -/
noncomputable def rowMean {m n : Nat} (x : Matrix (Fin m) (Fin n) ℝ) (i : Fin m) : ℝ :=
  (∑ j, x i j) / n

/-- The centered signal `x_center = x - x_mean`. -/
noncomputable def center {m n : Nat} (x : Matrix (Fin m) (Fin n) ℝ) :
    Matrix (Fin m) (Fin n) ℝ :=
  Matrix.of fun i j => x i j - rowMean x i

/-- `np.cov(y)` for a 2-D input with at least two rows: the sample covariance
estimator over the sample axis, with the default `ddof = 1` normalization
`1 / (n_samples - 1)` and internal centering. -/
noncomputable def npCov {m n : Nat} (y : Matrix (Fin m) (Fin n) ℝ) :
    Matrix (Fin m) (Fin m) ℝ :=
  Matrix.of fun i k =>
    (∑ j, (y i j - rowMean y i) * (y k j - rowMean y k)) / ((n : ℝ) - 1)

/-- The whitening transform `eig_vecs @ diag(1/(eig_vals + eps)**0.5) @
eig_vecs.T` with the regularizer exposed as a parameter.  Modelled from the
spec: the spec requires `ε` to be a named, configurable function parameter,
which the source does not provide; the source construction is `whitenMatrix`
below. -/
noncomputable def whitenMatrixWithEps {m : Nat} (eigVals : Fin m → ℝ)
    (eigVecs : Matrix (Fin m) (Fin m) ℝ) (eps : ℝ) :
    Matrix (Fin m) (Fin m) ℝ :=
  eigVecs * Matrix.diagonal (fun i => 1 / Real.sqrt (eigVals i + eps)) *
    eigVecs.transpose

/-- The whitening matrix exactly as the source builds it, with the regularizer
fixed to the literal `eps = 1e-10` inside the body. -/
noncomputable def whitenMatrix {m : Nat} (eigVals : Fin m → ℝ)
    (eigVecs : Matrix (Fin m) (Fin m) ℝ) : Matrix (Fin m) (Fin m) ℝ :=
  eigVecs * Matrix.diagonal (fun i => 1 / Real.sqrt (eigVals i + 1e-10)) *
    eigVecs.transpose

/-- `whiten_signal(x)` from `src/hyser/preprocessing.py`, with the external
eigensolver output passed explicitly.  The error branch is the numpy
`LinAlgError` triggered for single-channel inputs described above. -/
noncomputable def whiten_signal {m n : Nat} (x : Matrix (Fin m) (Fin n) ℝ)
    (eigVals : Fin m → ℝ) (eigVecs : Matrix (Fin m) (Fin m) ℝ) :
    Except String (Matrix (Fin m) (Fin n) ℝ × Matrix (Fin m) (Fin m) ℝ) :=
  if m = 1 then
    Except.error "0-dimensional array given. Array must be at least two-dimensional"
  else
    Except.ok (whitenMatrix eigVals eigVecs * center x,
      whitenMatrix eigVals eigVecs)

/-- The guarantee provided by `np.linalg.eigh` on a symmetric matrix `C`: the
returned eigenvector matrix is orthogonal and `C = V * diag(eig_vals) * Vᵀ`. -/
def IsEigh {m : Nat} (C : Matrix (Fin m) (Fin m) ℝ) (eigVals : Fin m → ℝ)
    (eigVecs : Matrix (Fin m) (Fin m) ℝ) : Prop :=
  eigVecs.transpose * eigVecs = 1 ∧
    C = eigVecs * Matrix.diagonal eigVals * eigVecs.transpose

/-! #### Helper lemmas for the whitening theorems -/

lemma whitenMatrixWithEps_transpose {m : Nat} (eigVals : Fin m → ℝ)
    (eigVecs : Matrix (Fin m) (Fin m) ℝ) (eps : ℝ) :
    (whitenMatrixWithEps eigVals eigVecs eps).transpose =
      whitenMatrixWithEps eigVals eigVecs eps := by
  unfold whitenMatrixWithEps
  rw [Matrix.transpose_mul, Matrix.transpose_mul, Matrix.transpose_transpose,
    Matrix.diagonal_transpose, Matrix.mul_assoc]

/-- The centered signal has zero row means. -/
lemma rowMean_center {m n : Nat} (x : Matrix (Fin m) (Fin n) ℝ) (i : Fin m) :
    rowMean (center x) i = 0 := by
  simp only [center, rowMean, Matrix.of_apply]
  rcases Nat.eq_zero_or_pos n with h0 | hn
  · subst h0; simp
  · have hne : (n : ℝ) ≠ 0 := Nat.cast_ne_zero.mpr (Nat.pos_iff_ne_zero.mp hn)
    rw [Finset.sum_sub_distrib, Finset.sum_const, Finset.card_univ,
      Fintype.card_fin, nsmul_eq_mul, mul_div_cancel₀ _ hne, sub_self, zero_div]

/-- Row means after a matrix product. -/
lemma rowMean_mul {m n : Nat} (W : Matrix (Fin m) (Fin m) ℝ)
    (y : Matrix (Fin m) (Fin n) ℝ) (i : Fin m) :
    rowMean (W * y) i = ∑ k, W i k * rowMean y k := by
  have hswap : ∑ j : Fin n, ∑ k : Fin m, W i k * y k j
      = ∑ k : Fin m, W i k * ∑ j : Fin n, y k j := by
    rw [Finset.sum_comm]
    exact Finset.sum_congr rfl fun k _ => (Finset.mul_sum _ _ _).symm
  unfold rowMean
  simp only [Matrix.mul_apply]
  rw [hswap, Finset.sum_div]
  exact Finset.sum_congr rfl fun k _ => mul_div_assoc _ _ _

/-- For a zero-row-mean signal, `np.cov` is the scaled Gram matrix. -/
lemma npCov_centered {m n : Nat} (y : Matrix (Fin m) (Fin n) ℝ)
    (hy : ∀ i, rowMean y i = 0) :
    npCov y = ((n : ℝ) - 1)⁻¹ • (y * y.transpose) := by
  ext i k
  simp only [npCov, Matrix.of_apply, hy, sub_zero, Matrix.smul_apply,
    Matrix.mul_apply, Matrix.transpose_apply, smul_eq_mul]
  rw [div_eq_inv_mul]

/-- Covariance of a linearly transformed zero-mean signal:
`cov(W y) = W cov(y) Wᵀ`. -/
lemma npCov_mul {m n : Nat} (W : Matrix (Fin m) (Fin m) ℝ)
    (y : Matrix (Fin m) (Fin n) ℝ) (hy : ∀ i, rowMean y i = 0) :
    npCov (W * y) = W * npCov y * W.transpose := by
  have hWy : ∀ i, rowMean (W * y) i = 0 := fun i => by
    rw [rowMean_mul]; simp [hy]
  rw [npCov_centered _ hWy, npCov_centered _ hy]
  simp only [Matrix.transpose_mul, Matrix.mul_smul, Matrix.smul_mul,
    Matrix.mul_assoc]

/-- The regularized inverse square roots collapse against the eigenvalue
diagonal: `D * Λ * D = diag (λ / (λ + eps))`. -/
lemma diag_inv_sqrt_conj {m : Nat} (eigVals : Fin m → ℝ)
    (hpos : ∀ i, 0 < eigVals i + 1e-10) :
    Matrix.diagonal (fun i => 1 / Real.sqrt (eigVals i + 1e-10)) *
        Matrix.diagonal eigVals *
        Matrix.diagonal (fun i => 1 / Real.sqrt (eigVals i + 1e-10)) =
      Matrix.diagonal (fun i => eigVals i / (eigVals i + 1e-10)) := by
  rw [Matrix.diagonal_mul_diagonal, Matrix.diagonal_mul_diagonal]
  have harg : (fun i => 1 / Real.sqrt (eigVals i + 1e-10) * eigVals i *
        (1 / Real.sqrt (eigVals i + 1e-10)))
      = fun i => eigVals i / (eigVals i + 1e-10) := by
    funext i
    have hs : Real.sqrt (eigVals i + 1e-10) * Real.sqrt (eigVals i + 1e-10)
        = eigVals i + 1e-10 := Real.mul_self_sqrt (le_of_lt (hpos i))
    rw [div_mul_eq_mul_div, one_mul, div_mul_div_comm, mul_one, hs]
  rw [harg]

/-- Conjugating the spectral factorization of the covariance by the whitening
matrix yields `V * diag (λ / (λ + eps)) * Vᵀ`. -/
lemma whitenMatrix_conj {m : Nat} (eigVals : Fin m → ℝ)
    (V : Matrix (Fin m) (Fin m) ℝ) (hV : V.transpose * V = 1)
    (hpos : ∀ i, 0 < eigVals i + 1e-10) :
    whitenMatrix eigVals V * (V * Matrix.diagonal eigVals * V.transpose) *
        (whitenMatrix eigVals V).transpose =
      V * Matrix.diagonal (fun i => eigVals i / (eigVals i + 1e-10)) *
        V.transpose := by
  have hsymm : (whitenMatrix eigVals V).transpose = whitenMatrix eigVals V :=
    whitenMatrixWithEps_transpose eigVals V 1e-10
  have hcancel : ∀ X : Matrix (Fin m) (Fin m) ℝ,
      V.transpose * (V * X) = X := fun X => by
    rw [← Matrix.mul_assoc, hV, Matrix.one_mul]
  rw [hsymm]
  unfold whitenMatrix
  simp only [Matrix.mul_assoc, hcancel]
  rw [← Matrix.mul_assoc
      (Matrix.diagonal (fun i => 1 / Real.sqrt (eigVals i + 1e-10)))
      (Matrix.diagonal eigVals)
      (Matrix.diagonal (fun i => 1 / Real.sqrt (eigVals i + 1e-10)) *
        V.transpose),
    ← Matrix.mul_assoc
      (Matrix.diagonal (fun i => 1 / Real.sqrt (eigVals i + 1e-10)) *
        Matrix.diagonal eigVals)
      (Matrix.diagonal (fun i => 1 / Real.sqrt (eigVals i + 1e-10)))
      V.transpose,
    diag_inv_sqrt_conj eigVals hpos]

/-- Entry bound for a symmetric conjugation by an orthogonal matrix: if every
diagonal entry is at most `B` in absolute value, so is every entry of
`V * diag d * Vᵀ`. -/
lemma conj_diag_entry_bound {m : Nat} (V : Matrix (Fin m) (Fin m) ℝ)
    (d : Fin m → ℝ) (hV : V * V.transpose = 1) (B : ℝ)
    (hB : ∀ k, |d k| ≤ B) (i j : Fin m) :
    |(V * Matrix.diagonal d * V.transpose) i j| ≤ B := by
  have hentry : (V * Matrix.diagonal d * V.transpose) i j
      = ∑ k, V i k * d k * V j k := by
    rw [Matrix.mul_apply]
    simp only [Matrix.mul_diagonal, Matrix.transpose_apply]
  have hrow : ∀ a : Fin m, ∑ k, (V a k) ^ 2 = 1 := by
    intro a
    have h1 : (V * V.transpose) a a = (1 : Matrix (Fin m) (Fin m) ℝ) a a :=
      congrFun (congrFun hV a) a
    simp only [Matrix.mul_apply, Matrix.transpose_apply, Matrix.one_apply_eq]
      at h1
    calc ∑ k, (V a k) ^ 2 = ∑ k, V a k * V a k :=
          Finset.sum_congr rfl fun k _ => pow_two (V a k)
    _ = 1 := h1
  have habs : ∀ a : Fin m, ∑ k, |V a k| ^ 2 = 1 := fun a => by
    rw [← hrow a]
    exact Finset.sum_congr rfl fun k _ => sq_abs _
  have hcs : (∑ k, |V i k| * |V j k|) ≤ 1 := by
    have h2 : (∑ k, |V i k| * |V j k|) ^ 2
        ≤ (∑ k, |V i k| ^ 2) * (∑ k, |V j k| ^ 2) :=
      Finset.sum_mul_sq_le_sq_mul_sq _ _ _
    rw [habs i, habs j, mul_one] at h2
    have hnn : 0 ≤ ∑ k, |V i k| * |V j k| :=
      Finset.sum_nonneg fun k _ => mul_nonneg (abs_nonneg _) (abs_nonneg _)
    nlinarith
  have hB0 : 0 ≤ B := le_trans (abs_nonneg _) (hB i)
  rw [hentry]
  calc |∑ k, V i k * d k * V j k| ≤ ∑ k, |V i k * d k * V j k| :=
        Finset.abs_sum_le_sum_abs _ _
  _ = ∑ k, |d k| * (|V i k| * |V j k|) := by
        exact Finset.sum_congr rfl fun k _ => by
          rw [abs_mul, abs_mul]; ring
  _ ≤ ∑ k, B * (|V i k| * |V j k|) :=
        Finset.sum_le_sum fun k _ =>
          mul_le_mul_of_nonneg_right (hB k)
            (mul_nonneg (abs_nonneg _) (abs_nonneg _))
  _ = B * ∑ k, |V i k| * |V j k| := (Finset.mul_sum _ _ _).symm
  _ ≤ B * 1 := mul_le_mul_of_nonneg_left hcs hB0
  _ = B := mul_one B

/-- Subtracting the identity from an orthogonal conjugation of a diagonal
matrix shifts the diagonal by one. -/
lemma conj_diag_sub_one {m : Nat} (V : Matrix (Fin m) (Fin m) ℝ)
    (hVVt : V * V.transpose = 1) (d : Fin m → ℝ) :
    V * Matrix.diagonal d * V.transpose - 1
      = V * Matrix.diagonal (fun k => d k - 1) * V.transpose := by
  conv_lhs => rw [show (1 : Matrix (Fin m) (Fin m) ℝ)
    = V * Matrix.diagonal (fun _ => (1:ℝ)) * V.transpose by
      rw [Matrix.diagonal_one, Matrix.mul_one, hVVt]]
  rw [← Matrix.sub_mul, ← Matrix.mul_sub, Matrix.diagonal_sub]

/-! ### Claim theorems about `whiten_signal` -/

/-- C2: for every input whose eigensolver output is a genuine spectral
decomposition of the covariance of the centered signal (the `np.linalg.eigh`
guarantee) with all eigenvalues at least `1e-6` (a well-conditioned channel
set), `whiten_signal` returns a pair whose whitened signal has empirical
covariance within `1e-4` of the identity matrix, entrywise.  The shape
guarantees of the claim (X_white the shape of X, W of shape
`(n_channels, n_channels)`) hold by the types of the embedding. -/
theorem whiten_cov_near_identity {m n : Nat} (x : Matrix (Fin m) (Fin n) ℝ)
    (eigVals : Fin m → ℝ) (eigVecs : Matrix (Fin m) (Fin m) ℝ)
    (hm : m ≠ 1) (_hn : 2 ≤ n)
    (heig : IsEigh (npCov (center x)) eigVals eigVecs)
    (hwell : ∀ i, (1e-6 : ℝ) ≤ eigVals i)
    (pair : Matrix (Fin m) (Fin n) ℝ × Matrix (Fin m) (Fin m) ℝ)
    (hok : whiten_signal x eigVals eigVecs = Except.ok pair) :
    ∀ i j, |npCov pair.1 i j - (1 : Matrix (Fin m) (Fin m) ℝ) i j| ≤ 1e-4 := by
  obtain ⟨hV, hC⟩ := heig
  unfold whiten_signal at hok
  rw [if_neg hm] at hok
  injection hok with hok
  subst hok
  intro i j
  have hpos : ∀ k, (0:ℝ) < eigVals k + 1e-10 := fun k => by
    have h6 : (0:ℝ) < 1e-6 := by norm_num
    have h10 : (0:ℝ) < 1e-10 := by norm_num
    linarith [hwell k]
  have hVVt : eigVecs * eigVecs.transpose = 1 := Matrix.mul_eq_one_comm.mp hV
  have hmain : npCov (whitenMatrix eigVals eigVecs * center x)
      = eigVecs *
          Matrix.diagonal (fun k => eigVals k / (eigVals k + 1e-10)) *
          eigVecs.transpose := by
    rw [npCov_mul _ _ (rowMean_center x), hC,
      whitenMatrix_conj eigVals eigVecs hV hpos]
  have hbk : ∀ k, |eigVals k / (eigVals k + 1e-10) - 1| ≤ (1e-4 : ℝ) := by
    intro k
    have hp := hpos k
    have hw := hwell k
    rw [div_sub_one (ne_of_gt hp), abs_div, abs_of_pos hp]
    have hnum : |eigVals k - (eigVals k + 1e-10)| = (1e-10 : ℝ) := by
      rw [show eigVals k - (eigVals k + 1e-10) = -(1e-10 : ℝ) by ring, abs_neg,
        abs_of_pos (by norm_num)]
    rw [hnum, div_le_iff₀ hp]
    nlinarith
  calc |npCov (whitenMatrix eigVals eigVecs * center x) i j
        - (1 : Matrix (Fin m) (Fin m) ℝ) i j|
      = |(npCov (whitenMatrix eigVals eigVecs * center x)
          - (1 : Matrix (Fin m) (Fin m) ℝ)) i j| := by rw [Matrix.sub_apply]
  _ = |(eigVecs *
        Matrix.diagonal (fun k => eigVals k / (eigVals k + 1e-10) - 1) *
        eigVecs.transpose) i j| := by
        rw [hmain, conj_diag_sub_one eigVecs hVVt]
  _ ≤ 1e-4 := conj_diag_entry_bound eigVecs _ hVVt (1e-4) hbk i j

/-- Witness for `whiten_cov_near_identity`: a concrete 2-channel, 4-sample
signal with zero row means, diagonal covariance `diag (4/3, 4/3)`, eigenvalues
`(4/3, 4/3)` and eigenvector matrix `I`. -/
theorem whiten_cov_near_identity_witness :
    ((2:ℕ) ≠ 1) ∧ ((2:ℕ) ≤ 4) ∧
    IsEigh
      (npCov (center (![![(1:ℝ), -1, 1, -1], ![1, 1, -1, -1]] :
        Matrix (Fin 2) (Fin 4) ℝ)))
      ![(4:ℝ)/3, 4/3] 1 ∧
    (∀ i : Fin 2, (1e-6 : ℝ) ≤ (![(4:ℝ)/3, 4/3] : Fin 2 → ℝ) i) ∧
    (∀ i j : Fin 2,
      |npCov (whitenMatrix ![(4:ℝ)/3, 4/3] 1 *
          center (![![(1:ℝ), -1, 1, -1], ![1, 1, -1, -1]] :
            Matrix (Fin 2) (Fin 4) ℝ)) i j
        - (1 : Matrix (Fin 2) (Fin 2) ℝ) i j| ≤ 1e-4) := by
  have hA : IsEigh
      (npCov (center (![![(1:ℝ), -1, 1, -1], ![1, 1, -1, -1]] :
        Matrix (Fin 2) (Fin 4) ℝ)))
      ![(4:ℝ)/3, 4/3] 1 := by
    constructor
    · simp
    · have hrm : ∀ i, rowMean
          (![![(1:ℝ), -1, 1, -1], ![1, 1, -1, -1]] :
            Matrix (Fin 2) (Fin 4) ℝ) i = 0 := by
        intro i
        fin_cases i <;> norm_num [rowMean, Fin.sum_univ_four]
      have hcen : center (![![(1:ℝ), -1, 1, -1], ![1, 1, -1, -1]] :
            Matrix (Fin 2) (Fin 4) ℝ)
          = ![![(1:ℝ), -1, 1, -1], ![1, 1, -1, -1]] := by
        ext i j
        simp [center, hrm]
      rw [Matrix.one_mul, Matrix.transpose_one, Matrix.mul_one, hcen]
      ext i k
      fin_cases i <;> fin_cases k <;>
        norm_num [npCov, hrm, Fin.sum_univ_four, Matrix.diagonal_apply]
  have hB : ∀ i : Fin 2, (1e-6 : ℝ) ≤ (![(4:ℝ)/3, 4/3] : Fin 2 → ℝ) i := by
    intro i; fin_cases i <;> norm_num
  refine ⟨by norm_num, by norm_num, hA, hB, ?_⟩
  have hres := whiten_cov_near_identity _ ![(4:ℝ)/3, 4/3] 1 (by norm_num)
    (by norm_num) hA hB _ rfl
  exact hres

/-- C3: the whitening matrix returned by `whiten_signal` is symmetric (exactly,
in real arithmetic), because it is constructed as `V * D * Vᵀ` with `D`
diagonal.  No assumption on the eigensolver output is required. -/
theorem whiten_matrix_symmetric {m n : Nat} (x : Matrix (Fin m) (Fin n) ℝ)
    (hm : 2 ≤ m) (eigVals : Fin m → ℝ) (eigVecs : Matrix (Fin m) (Fin m) ℝ)
    (pair : Matrix (Fin m) (Fin n) ℝ × Matrix (Fin m) (Fin m) ℝ)
    (hok : whiten_signal x eigVals eigVecs = Except.ok pair) :
    pair.2.transpose = pair.2 := by
  unfold whiten_signal at hok
  rw [if_neg (by omega)] at hok
  injection hok with hok
  subst hok
  exact whitenMatrixWithEps_transpose eigVals eigVecs 1e-10

/-- Witness for `whiten_matrix_symmetric` at a concrete 2-channel input with
`eig_vals = [0, 0]` and `eig_vecs = I`. -/
theorem whiten_matrix_symmetric_witness :
    (whitenMatrix ![(0:ℝ), 0] (1 : Matrix (Fin 2) (Fin 2) ℝ)).transpose =
      whitenMatrix ![(0:ℝ), 0] 1 :=
  whiten_matrix_symmetric ![![(1:ℝ), 3], ![2, 4]] (by norm_num) ![0, 0] 1
    (whitenMatrix ![(0:ℝ), 0] 1 * center ![![(1:ℝ), 3], ![2, 4]],
      whitenMatrix ![(0:ℝ), 0] 1) rfl

/-- C7 amended: the regularizer is not a configurable parameter of
`whiten_signal`; it is the hidden constant `1e-10` embedded in the body, so
the whitening matrix the source builds coincides with the spec-modelled
`ε`-parametrized construction evaluated at `ε = 1e-10` — for every input. -/
theorem whiten_eps_fixed {m : Nat} (eigVals : Fin m → ℝ)
    (eigVecs : Matrix (Fin m) (Fin m) ℝ) :
    whitenMatrix eigVals eigVecs = whitenMatrixWithEps eigVals eigVecs 1e-10 :=
  rfl

/-- C7 counterexample: the source whitening construction is not the
`ε`-configured one; at a concrete eigensolver output it differs from the
spec-modelled construction with a caller-chosen `ε = 3 + 1e-10` (the source
pins the result to `ε = 1e-10`). -/
theorem whiten_eps_not_configurable :
    whitenMatrixWithEps ![(1:ℝ) - 1e-10] (1 : Matrix (Fin 1) (Fin 1) ℝ)
        (3 + 1e-10) ≠
      whitenMatrix ![(1:ℝ) - 1e-10] 1 := by
  intro h
  have h00 := congrFun (congrFun h 0) 0
  simp only [whitenMatrixWithEps, whitenMatrix, Matrix.transpose_one,
    Matrix.mul_one, Matrix.one_mul, Matrix.diagonal_apply_eq,
    Matrix.cons_val_zero] at h00
  rw [show (1:ℝ) - 1e-10 + (3 + 1e-10) = 2 ^ 2 by norm_num,
    show (1:ℝ) - 1e-10 + 1e-10 = 1 by norm_num, Real.sqrt_one,
    Real.sqrt_sq (by norm_num : (0:ℝ) ≤ 2)] at h00
  norm_num at h00

/-- C10: for every single-channel input (shape `(1, n_samples)`),
`whiten_signal` raises instead of returning a whitened pair: `np.cov` squeezes
the `(1, 1)` covariance to a 0-dimensional array, which the symmetric
eigensolver rejects. -/
theorem whiten_single_channel_rejected (n : Nat)
    (x : Matrix (Fin 1) (Fin n) ℝ) (eigVals : Fin 1 → ℝ)
    (eigVecs : Matrix (Fin 1) (Fin 1) ℝ) :
    whiten_signal x eigVals eigVecs =
      Except.error
        "0-dimensional array given. Array must be at least two-dimensional" :=
  rfl

end hyser
